import Mathlib

/-! organize-tv-files: the subtree scan and its time-ordered collection.

A shallow embedding of `src/main.c`.

Representation choices, all of them documented at the definition they concern:

* C integers (`int`, `time_t`, `off_t`, `blkcnt_t`) are `Int`.  Every field of a
  record is a plain copy of a value of the same C type, so no arithmetic and
  hence no overflow is involved anywhere in the modelled code.
* A chain of `tFileObj` linked through `next` is a `List tFileObj`; the
  `next` field of a record is the tail of the list at that record, `NULL` is
  `[]`.  A possibly-null pointer to a single record is an `Option tFileObj`.
* The static `gScanSubtree` is passed explicitly.
* `malloc`, `strdup` and `nftw` belong to the C library.  The outcome of the
  two allocations is part of each visit; `nftw` is the driver that hands the
  visits to the callback one after the other.
* `localtime_r` and `strftime` belong to the C library too.  Their joint
  answer is a parameter of the report, `none` where `localtime_r` returns the
  null pointer.
* A run that reads through a null pointer is killed; it has no outcome, `none`.
-/

namespace OrganizeTv

/-! ## Data model -/

/-- The fields of `struct tFileObj` other than `next`.  `path` is the result of
`strdup`, which is `NULL` (`none`) when the copy could not be allocated. -/
structure tFileObj where
  path : Option String
  base : Int
  level : Int
  timestamp : Int
  size : Int
  blocks : Int
deriving DecidableEq, Repr

/-- The static `gScanSubtree`: the head of the chain and the unused flag. -/
structure tScanSubtree where
  root : List tFileObj
  oldestFirst : Int
deriving DecidableEq, Repr

/-- The fields of `struct stat` that the program reads. -/
structure Stat where
  st_mtim_tv_sec : Int
  st_size : Int
  st_blocks : Int
deriving DecidableEq, Repr

/-- The two fields of `struct FTW`. -/
structure FTW where
  base : Int
  level : Int
deriving DecidableEq, Repr

/-- Outcome of the two allocations `newFile` may request: whether `malloc`
returns a block and whether `strdup` returns a copy. -/
structure Alloc where
  malloc_ok : Bool
  strdup_ok : Bool
deriving DecidableEq, Repr

/-- One call of the traversal callback: its four arguments, and what the
allocator answers during that call. -/
structure Visit where
  filename : String
  status : Stat
  type : Int
  info : FTW
  mem : Alloc
deriving DecidableEq, Repr

/-! The type codes of `<ftw.h>`. -/

/-- Regular file. -/
def FTW_F : Int := 0
/-- Directory. -/
def FTW_D : Int := 1
/-- Unreadable directory. -/
def FTW_DNR : Int := 2
/-- Unstatable file. -/
def FTW_NS : Int := 3
/-- Symbolic link. -/
def FTW_SL : Int := 4
/-- Directory, all subdirectories have been visited. -/
def FTW_DP : Int := 5
/-- Symbolic link naming a non-existing file. -/
def FTW_SLN : Int := 6

/-! ## Operations -/

/-- `newerThan`: `a->timestamp > b->timestamp`. -/
def newerThan (a b : tFileObj) : Bool :=
  decide (a.timestamp > b.timestamp)

/-- `freeList`: walks the chain and hands every record to `free`; the result is
the sequence of records released, in the order of the calls. -/
def freeList : List tFileObj → List tFileObj
  | [] => []
  | fileObj :: next => fileObj :: freeList next

/-- The `while` loop of `insertFile` together with the `if` that follows it,
started with `current` at the head of the given chain and `prevptr` at the
link that holds it.  The result is the chain hanging from that link afterwards.

* `current == NULL`: the loop is over without a `break`, so
  `newFile->next = NULL; *prevptr = newFile`.
* `compare(newFile, current)`: `newFile->next = *prevptr; *prevptr = newFile;
  break`.
* otherwise `prevptr = &current->next; current = current->next`. -/
def insertLoop (compare : tFileObj → tFileObj → Bool) (newFile : tFileObj) :
    List tFileObj → List tFileObj
  | [] => [newFile]
  | current :: next =>
    if compare newFile current then newFile :: current :: next
    else current :: insertLoop compare newFile next

/-- `insertFile`: nothing happens for `NULL`; otherwise the loop runs from
`gScanSubtree.root`.  Returns the new static state and the pointer handed in. -/
def insertFile (g : tScanSubtree) (newFile : Option tFileObj)
    (compare : tFileObj → tFileObj → Bool) : tScanSubtree × Option tFileObj :=
  match newFile with
  | none => (g, none)
  | some f => ({ g with root := insertLoop compare f g.root }, some f)

/-- `newFile`: `NULL` when `malloc` fails; otherwise a record filled from the
arguments, whose `path` is whatever `strdup` returned. -/
def newFile (mem : Alloc) (filename : String) (status : Stat) (info : FTW) :
    Option tFileObj :=
  if mem.malloc_ok then
    some { path := if mem.strdup_ok then some filename else none
           base := info.base
           level := info.level
           timestamp := status.st_mtim_tv_sec
           size := status.st_size
           blocks := status.st_blocks }
  else none

/-- `nftwCallback`: a regular file is turned into a record and inserted with
`newerThan`; every other type code is ignored.  Always returns 0. -/
def nftwCallback (g : tScanSubtree) (mem : Alloc) (filename : String) (status : Stat)
    (type : Int) (info : FTW) : tScanSubtree × Int :=
  if type = FTW_F then
    ((insertFile g (newFile mem filename status info) newerThan).1, 0)
  else (g, 0)

/-- The library driver `nftw`: calls `fn` for each visit in turn, and stops at
the first call that returns a non-zero value, which it then returns. -/
def nftw (fn : tScanSubtree → Alloc → String → Stat → Int → FTW → tScanSubtree × Int) :
    List Visit → tScanSubtree → tScanSubtree × Int
  | [], g => (g, 0)
  | v :: vs, g =>
    let r := fn g v.mem v.filename v.status v.type v.info
    if r.2 ≠ 0 then r else nftw fn vs r.1

/-- `ScanSubtree`: releases the old chain, empties the head, lets `nftw` drive
`nftwCallback` over the visits of the walk of `path`, and returns the head.
The first component is the static state afterwards. -/
def ScanSubtree (g : tScanSubtree) (visits : List Visit) : tScanSubtree × List tFileObj :=
  let _released := freeList g.root
  let g1 : tScanSubtree := { g with root := [] }
  let g2 := (nftw nftwCallback visits g1).1
  (g2, g2.root)

/-- The conversion `%12ld` of `fprintf`: the decimal digits of `n`, with a leading
`-` when `n` is negative, after as many spaces as it takes to fill 12 columns
(none when the number is wider than that). -/
def format_12ld (n : Int) : String :=
  String.mk (List.replicate (12 - (toString n).length) ' ') ++ toString n

/-- The conversion `%s` of `fprintf`: the characters of the string.  The C
library prints `(null)` for a null pointer. -/
def format_s (s : Option String) : String :=
  s.getD "(null)"

/-- One turn of the loop of `dumpSubtree` for the record `p`:
`strftime( timeAsString, sizeof(timeAsString), "%F %T", localtime_r( &p->timestamp,
&scratchTime ) )` followed by
`fprintf( stdout, "%s %12ld %s\n", timeAsString, p->size, p->path )`.

`localTime t` stands for the two library calls; it depends on the time zone of
the process.  It is `none` when `localtime_r` returns the null pointer, which
it does for a timestamp whose year does not fit `tm_year`; otherwise it is the
text `strftime` produces (at most 26 characters, so the buffer of 32 holds it).
The code hands the result of `localtime_r` to `strftime` unchecked, so for
`none` the process is killed inside `strftime` and the turn has no outcome;
otherwise the outcome is the text written to `stdout`. -/
def dumpLine (localTime : Int → Option String) (p : tFileObj) : Option String :=
  match localTime p.timestamp with
  | none => none
  | some timeAsString =>
    some (timeAsString ++ " " ++ format_12ld p.size ++ " " ++ format_s p.path ++ "\n")

/-- The `while` loop of `dumpSubtree`: the texts written to `stdout`, one call
of `fprintf` after the other, while `p` runs down the chain; `none` when the
process is killed in one of the turns. -/
def dumpLoop (localTime : Int → Option String) : List tFileObj → Option (List String)
  | [] => some []
  | p :: next =>
    match dumpLine localTime p with
    | none => none
    | some line =>
      match dumpLoop localTime next with
      | none => none
      | some lines => some (line :: lines)

/-- `dumpSubtree`: when the loop comes to its end, returns the pointer it was
given; the second component is what it wrote to `stdout`.  It is `none` when
the process is killed in the loop. -/
def dumpSubtree (localTime : Int → Option String) (file : List tFileObj) :
    Option (List tFileObj × List String) :=
  match dumpLoop localTime file with
  | none => none
  | some lines => some (file, lines)

/-- The `for` loop of `getLastPathElement`: `result` is the text from the
pointer `result` to the end of the string, the second argument the text from
`p` to the end.  At a `/` the result becomes `&p[1]`, the text after it. -/
def getLastPathElementLoop : List Char → List Char → List Char
  | result, [] => result
  | result, c :: rest =>
    if c = '/' then getLastPathElementLoop rest rest
    else getLastPathElementLoop result rest

/-- `getLastPathElement`: the loop started with `result = str` and `p = str`. -/
def getLastPathElement (str : String) : String :=
  String.mk (getLastPathElementLoop str.data str.data)

/-- What `usage` writes to `stderr`. -/
def usage : String := "Say what?\n"

/-- What a run of `main` leaves behind: the value returned, the static state,
and the texts written to `stdout` and to `stderr`. -/
structure tRun where
  result : Int
  g : tScanSubtree
  stdout : List String
  stderr : List String
deriving DecidableEq, Repr

/-- `main`.  `argv` holds the `argc` arguments; `walk path` is the sequence of
visits `nftw` makes for `path`.  With no argument at all `argv[0]` is the null
pointer, which `getLastPathElement` dereferences: the run has no outcome.
Otherwise the name is echoed to `stderr`; then `argc > 1` leads to
`dumpSubtree( ScanSubtree( argv[1] ) )` and, when `dumpSubtree` returns, to the
result 0; when the process is killed inside `dumpSubtree` the run has no
outcome.  `argc == 1` leads to `usage()` and the result -1.  The context
obtained from `poptGetContext` is never used. -/
def main (localTime : Int → Option String) (walk : String → List Visit) (g : tScanSubtree)
    (argv : List String) : Option tRun :=
  match argv with
  | [] => none
  | arg0 :: rest =>
    let myName := getLastPathElement arg0
    let echo := "invoked as \x27" ++ myName ++ "\x27\n"
    match rest with
    | path :: _ =>
      let scan := ScanSubtree g (walk path)
      match dumpSubtree localTime scan.2 with
      | none => none
      | some dump =>
        some { result := 0, g := scan.1, stdout := dump.2, stderr := [echo] }
    | [] =>
      some { result := -1, g := g, stdout := [], stderr := [echo, usage] }

/-! ## Vocabulary of the statements -/

/-- Reference for the order of the report, after the words of the
specification: the stable sort of the records by descending timestamp, here
the insertion sort of the library for the relation "at least as new as". -/
def stableSortNewestFirst (rs : List tFileObj) : List tFileObj :=
  rs.insertionSort (fun a b => a.timestamp ≥ b.timestamp)

/-- A visit of a regular file. -/
def isRegular (v : Visit) : Bool :=
  decide (v.type = FTW_F)

/-- What the callback hands to `insertFile` during a visit: the result of
`newFile` for a regular file, nothing for any other type code. -/
def extracted (v : Visit) : Option tFileObj :=
  if v.type = FTW_F then newFile v.mem v.filename v.status v.info else none

/-- The records created during a walk, in the order of discovery. -/
def discovered (visits : List Visit) : List tFileObj :=
  visits.filterMap extracted

/-- The record of a visit all of whose allocations succeed. -/
def recordOf (v : Visit) : tFileObj :=
  { path := some v.filename
    base := v.info.base
    level := v.info.level
    timestamp := v.status.st_mtim_tv_sec
    size := v.status.st_size
    blocks := v.status.st_blocks }

/-- A chain is in order for `compare` when no record precedes a record that
`compare` places strictly before it. -/
def InOrder (compare : tFileObj → tFileObj → Bool) (l : List tFileObj) : Prop :=
  l.Pairwise (fun a b => compare b a = false)

/-- The chain after inserting the records `rs` one after the other. -/
def insertAll (compare : tFileObj → tFileObj → Bool) (rs : List tFileObj)
    (g : tScanSubtree) : tScanSubtree :=
  rs.foldl (fun s r => (insertFile s (some r) compare).1) g

/-! ## Concrete walks -/

/-- A static state before any scan. -/
def gInit : tScanSubtree := { root := [], oldestFirst := 0 }

/-- Both allocations succeed. -/
def allocOk : Alloc := { malloc_ok := true, strdup_ok := true }

/-- A visit of a regular file at depth 1 below the root `.`. -/
def fileVisit (name : String) (mtime size : Int) (mem : Alloc) : Visit :=
  { filename := name
    status := { st_mtim_tv_sec := mtime, st_size := size, st_blocks := 8 }
    type := FTW_F
    info := { base := 2, level := 1 }
    mem := mem }

/-- A visit of the root directory after its entries. -/
def dirVisit (name : String) (mtime : Int) : Visit :=
  { filename := name
    status := { st_mtim_tv_sec := mtime, st_size := 4096, st_blocks := 8 }
    type := FTW_DP
    info := { base := 0, level := 0 }
    mem := allocOk }

/-- The walk of a root that holds `a.txt` (modified at `T`, 10 bytes) and `b.txt`
(modified at `T + 60`, 20 bytes). -/
def scenario1 (T : Int) : List Visit :=
  [fileVisit "./a.txt" T 10 allocOk, fileVisit "./b.txt" (T + 60) 20 allocOk,
    dirVisit "." (T + 60)]

/-- A walk with two files modified in the same second. -/
def tieWalk : List Visit :=
  [fileVisit "./x.txt" 500 1 allocOk, fileVisit "./y.txt" 700 2 allocOk,
    fileVisit "./z.txt" 500 3 allocOk, dirVisit "." 700]

/-- A record at depth 1 below the root `.`. -/
def sampleRecord (name : String) (timestamp size : Int) : tFileObj :=
  { path := some name, base := 2, level := 1, timestamp := timestamp, size := size,
    blocks := 8 }

/-- A state whose chain is in order for `newerThan` and holds two records of
timestamp 500. -/
def sampleChain : tScanSubtree :=
  { root := [sampleRecord "./y.txt" 700 2, sampleRecord "./x.txt" 500 1,
      sampleRecord "./z.txt" 500 3, sampleRecord "./w.txt" 100 4]
    oldestFirst := 0 }

/-- The walk of a root `.` that holds a directory `sub` with `c.txt` (modified at
`T + 120`) and a file `a.txt` (modified at `T`): post-order, so `sub` is
reported after its entry and the root last. -/
def scenario2 (T : Int) : List Visit :=
  [{ filename := "./sub/c.txt"
     status := { st_mtim_tv_sec := T + 120, st_size := 30, st_blocks := 8 }
     type := FTW_F
     info := { base := 6, level := 2 }
     mem := allocOk },
    dirVisit "./sub" (T + 120),
    fileVisit "./a.txt" T 10 allocOk,
    dirVisit "." (T + 120)]

/-- A number below 100 written with two digits. -/
def twoDigits (n : Int) : String :=
  if n < 10 then "0" ++ toString n else toString n

/-- Year, month and day of the proleptic Gregorian calendar for a number of
days since 1970-01-01. -/
def civilFromDays (days : Int) : Int × Int × Int :=
  let z := days + 719468
  let era := z / 146097
  let doe := z - era * 146097
  let yoe := (doe - doe / 1460 + doe / 36524 - doe / 146096) / 365
  let doy := doe - (365 * yoe + yoe / 4 - yoe / 100)
  let mp := (5 * doy + 2) / 153
  let d := doy - (153 * mp + 2) / 5 + 1
  let m := if mp < 10 then mp + 3 else mp - 9
  let y := yoe + era * 400 + (if m ≤ 2 then 1 else 0)
  (y, m, d)

/-- Date and time of day of a timestamp in the time zone UTC, written as
`year-month-day hours:minutes:seconds`. -/
def utcText (t : Int) : String :=
  let date := civilFromDays (t / 86400)
  let s := t % 86400
  toString date.1 ++ "-" ++ twoDigits date.2.1 ++ "-" ++ twoDigits date.2.2 ++ " "
    ++ twoDigits (s / 3600) ++ ":" ++ twoDigits (s % 3600 / 60) ++ ":" ++ twoDigits (s % 60)

/-- The two library calls of `dumpSubtree` in the time zone UTC: `localtime_r`
returns the null pointer outside the seconds of the years -2147481748 to
2147485547, the years for which `tm_year` is an `int`. -/
def sampleLocalTime (t : Int) : Option String :=
  if t < -67768040609740800 ∨ 67768036191676799 < t then none else some (utcText t)

/-- A file system in which every path leads to the walk of scenario 1. -/
def sampleWalk (_path : String) : List Visit :=
  scenario1 1700000000

/-- A file system in which every path leads to a root that holds `a.txt` and a
file `far.txt` whose modification time is `10 ^ 17` seconds. -/
def farWalk (_path : String) : List Visit :=
  [fileVisit "./a.txt" 1700000000 10 allocOk,
    fileVisit "./far.txt" 100000000000000000 20 allocOk, dirVisit "." 1700000000]

/-! ## The insertion loop -/

theorem insertLoop_eq_takeWhile_dropWhile (compare : tFileObj → tFileObj → Bool)
    (r : tFileObj) (l : List tFileObj) :
    insertLoop compare r l
      = l.takeWhile (fun c => !compare r c) ++ r :: l.dropWhile (fun c => !compare r c) := by
  induction l with
  | nil => rfl
  | cons c l ih =>
    by_cases h : compare r c = true
    · simp [insertLoop, h, List.takeWhile, List.dropWhile]
    · simp [insertLoop, h, List.takeWhile, List.dropWhile, ih]

theorem insertLoop_perm (compare : tFileObj → tFileObj → Bool) (r : tFileObj)
    (l : List tFileObj) : (insertLoop compare r l).Perm (r :: l) := by
  rw [insertLoop_eq_takeWhile_dropWhile]
  refine List.perm_middle.trans ?_
  rw [List.takeWhile_append_dropWhile]

theorem insertLoop_length (compare : tFileObj → tFileObj → Bool) (r : tFileObj)
    (l : List tFileObj) : (insertLoop compare r l).length = l.length + 1 := by
  simpa using (insertLoop_perm compare r l).length_eq

theorem mem_insertLoop (compare : tFileObj → tFileObj → Bool) (r x : tFileObj)
    (l : List tFileObj) : x ∈ insertLoop compare r l ↔ x = r ∨ x ∈ l := by
  rw [(insertLoop_perm compare r l).mem_iff, List.mem_cons]

/-- Insertion keeps a chain in order, for a comparator that is irreflexive and
transitive. -/
theorem insertLoop_inOrder (compare : tFileObj → tFileObj → Bool)
    (hirr : ∀ a, compare a a = false)
    (htrans : ∀ a b c, compare a b = true → compare b c = true → compare a c = true)
    (r : tFileObj) (l : List tFileObj) (hl : InOrder compare l) :
    InOrder compare (insertLoop compare r l) := by
  induction l with
  | nil => simp [insertLoop, InOrder]
  | cons c l ih =>
    have hc : ∀ b ∈ l, compare b c = false := (List.pairwise_cons.mp hl).1
    have hl2 : InOrder compare l := (List.pairwise_cons.mp hl).2
    by_cases h : compare r c = true
    · simp only [insertLoop, h, if_true]
      refine List.pairwise_cons.mpr ⟨?_, hl⟩
      intro b hb
      by_contra hbr
      have hbr2 : compare b r = true := by simpa using hbr
      have hbc : compare b c = true := htrans b r c hbr2 h
      rcases List.mem_cons.mp hb with rfl | hb2
      · rw [hirr] at hbc; exact Bool.noConfusion hbc
      · rw [hc b hb2] at hbc; exact Bool.noConfusion hbc
    · have h2 : compare r c = false := by simpa using h
      simp only [insertLoop, h2]
      refine List.pairwise_cons.mpr ⟨?_, ih hl2⟩
      intro b hb
      rcases (mem_insertLoop compare r b l).mp hb with rfl | hb2
      · exact h2
      · exact hc b hb2

/-! ## `newerThan` -/

theorem newerThan_irrefl (a : tFileObj) : newerThan a a = false := by
  simp [newerThan]

theorem newerThan_trans (a b c : tFileObj) (hab : newerThan a b = true)
    (hbc : newerThan b c = true) : newerThan a c = true := by
  simp only [newerThan, decide_eq_true_eq] at *
  omega

theorem newerThan_eq_false_iff (a b : tFileObj) :
    newerThan a b = false ↔ a.timestamp ≤ b.timestamp := by
  simp [newerThan]

theorem inOrder_newerThan_iff (l : List tFileObj) :
    InOrder newerThan l ↔ l.Pairwise (fun a b => b.timestamp ≤ a.timestamp) := by
  unfold InOrder
  constructor <;> intro h <;> refine h.imp ?_ <;> intro a b hab
  · exact (newerThan_eq_false_iff b a).mp hab
  · exact (newerThan_eq_false_iff b a).mpr hab

/-! ## Repeated insertion -/

theorem insertFile_some (g : tScanSubtree) (r : tFileObj)
    (compare : tFileObj → tFileObj → Bool) :
    insertFile g (some r) compare
      = ({ g with root := insertLoop compare r g.root }, some r) := rfl

theorem insertAll_nil (compare : tFileObj → tFileObj → Bool) (g : tScanSubtree) :
    insertAll compare [] g = g := rfl

theorem insertAll_cons (compare : tFileObj → tFileObj → Bool) (r : tFileObj)
    (rs : List tFileObj) (g : tScanSubtree) :
    insertAll compare (r :: rs) g
      = insertAll compare rs { g with root := insertLoop compare r g.root } := rfl

theorem insertAll_oldestFirst (compare : tFileObj → tFileObj → Bool) (rs : List tFileObj)
    (g : tScanSubtree) : (insertAll compare rs g).oldestFirst = g.oldestFirst := by
  induction rs generalizing g with
  | nil => rfl
  | cons r rs ih => rw [insertAll_cons, ih]

theorem insertAll_perm (compare : tFileObj → tFileObj → Bool) (rs : List tFileObj)
    (g : tScanSubtree) : (insertAll compare rs g).root.Perm (g.root ++ rs) := by
  induction rs generalizing g with
  | nil => simp [insertAll_nil]
  | cons r rs ih =>
    rw [insertAll_cons]
    refine (ih _).trans ?_
    simp only
    refine ((insertLoop_perm compare r g.root).append_right rs).trans ?_
    exact List.perm_middle.symm

theorem insertAll_inOrder (compare : tFileObj → tFileObj → Bool)
    (hirr : ∀ a, compare a a = false)
    (htrans : ∀ a b c, compare a b = true → compare b c = true → compare a c = true)
    (rs : List tFileObj) (g : tScanSubtree) (hg : InOrder compare g.root) :
    InOrder compare (insertAll compare rs g).root := by
  induction rs generalizing g with
  | nil => simpa [insertAll_nil] using hg
  | cons r rs ih =>
    rw [insertAll_cons]
    exact ih _ (insertLoop_inOrder compare hirr htrans r g.root hg)

/-- The state does not matter beyond its root. -/
theorem insertAll_root_congr (compare : tFileObj → tFileObj → Bool) (rs : List tFileObj)
    (g h : tScanSubtree) (hroot : g.root = h.root) :
    (insertAll compare rs g).root = (insertAll compare rs h).root := by
  induction rs generalizing g h with
  | nil => simpa [insertAll_nil] using hroot
  | cons r rs ih =>
    rw [insertAll_cons, insertAll_cons]
    exact ih _ _ (by simp [hroot])

/-! ## The walk -/

theorem nftwCallback_eq (g : tScanSubtree) (v : Visit) :
    nftwCallback g v.mem v.filename v.status v.type v.info
      = ((insertFile g (extracted v) newerThan).1, 0) := by
  unfold nftwCallback extracted
  by_cases h : v.type = FTW_F
  · simp [h]
  · simp [h, insertFile]

theorem nftw_nftwCallback (visits : List Visit) (g : tScanSubtree) :
    nftw nftwCallback visits g = (insertAll newerThan (discovered visits) g, 0) := by
  induction visits generalizing g with
  | nil => rfl
  | cons v vs ih =>
    simp only [nftw, nftwCallback_eq, ne_eq, not_true_eq_false, if_false, ih]
    cases hv : extracted v with
    | none => simp [discovered, List.filterMap_cons, hv, insertFile]
    | some r => simp [discovered, List.filterMap_cons, hv, insertFile, insertAll_cons]

theorem ScanSubtree_eq (g : tScanSubtree) (visits : List Visit) :
    (ScanSubtree g visits).2
      = (insertAll newerThan (discovered visits) { g with root := [] }).root := by
  simp [ScanSubtree, nftw_nftwCallback]

theorem ScanSubtree_state (g : tScanSubtree) (visits : List Visit) :
    (ScanSubtree g visits).1.root = (ScanSubtree g visits).2
      ∧ (ScanSubtree g visits).1.oldestFirst = g.oldestFirst := by
  simp [ScanSubtree, nftw_nftwCallback, insertAll_oldestFirst]

theorem ScanSubtree_perm (g : tScanSubtree) (visits : List Visit) :
    (ScanSubtree g visits).2.Perm (discovered visits) := by
  rw [ScanSubtree_eq]
  simpa using insertAll_perm newerThan (discovered visits) { g with root := [] }

theorem ScanSubtree_inOrder (g : tScanSubtree) (visits : List Visit) :
    InOrder newerThan (ScanSubtree g visits).2 := by
  rw [ScanSubtree_eq]
  exact insertAll_inOrder newerThan newerThan_irrefl newerThan_trans _ _ List.Pairwise.nil

/-! ## Stability -/

/-- Among the records of one timestamp, a new record goes last. -/
theorem insertLoop_filter_timestamp (t : Int) (r : tFileObj) (l : List tFileObj)
    (hl : InOrder newerThan l) :
    (insertLoop newerThan r l).filter (fun x => decide (x.timestamp = t))
      = l.filter (fun x => decide (x.timestamp = t))
          ++ (if r.timestamp = t then [r] else []) := by
  induction l with
  | nil => by_cases hr : r.timestamp = t <;> simp [insertLoop, hr]
  | cons c l ih =>
    have hc : ∀ b ∈ l, b.timestamp ≤ c.timestamp :=
      (List.pairwise_cons.mp ((inOrder_newerThan_iff _).mp hl)).1
    have hl2 : InOrder newerThan l := (List.pairwise_cons.mp hl).2
    by_cases h : newerThan r c = true
    · have hlt : c.timestamp < r.timestamp := by simpa [newerThan] using h
      simp only [insertLoop, h, if_true]
      by_cases hr : r.timestamp = t
      · have hnil : (c :: l).filter (fun x => decide (x.timestamp = t)) = [] := by
          rw [List.filter_eq_nil_iff]
          intro b hb
          have hbc : b.timestamp ≤ c.timestamp := by
            rcases List.mem_cons.mp hb with rfl | hb2
            · exact le_refl _
            · exact hc b hb2
          have : b.timestamp ≠ t := by omega
          simpa using this
        rw [List.filter_cons_of_pos (by simpa using hr), hnil]
        simp [hr]
      · rw [List.filter_cons_of_neg (by simpa using hr)]
        simp [hr]
    · have h2 : newerThan r c = false := by simpa using h
      simp only [insertLoop, h2, Bool.false_eq_true, if_false]
      by_cases hct : c.timestamp = t
      · rw [List.filter_cons_of_pos (by simpa using hct),
          List.filter_cons_of_pos (by simpa using hct), ih hl2]
        rfl
      · rw [List.filter_cons_of_neg (by simpa using hct),
          List.filter_cons_of_neg (by simpa using hct), ih hl2]

theorem insertAll_filter_timestamp (t : Int) (rs : List tFileObj) (g : tScanSubtree)
    (hg : InOrder newerThan g.root) :
    (insertAll newerThan rs g).root.filter (fun x => decide (x.timestamp = t))
      = g.root.filter (fun x => decide (x.timestamp = t))
          ++ rs.filter (fun x => decide (x.timestamp = t)) := by
  induction rs generalizing g with
  | nil => simp [insertAll_nil]
  | cons r rs ih =>
    rw [insertAll_cons,
      ih _ (insertLoop_inOrder newerThan newerThan_irrefl newerThan_trans r g.root hg)]
    simp only
    rw [insertLoop_filter_timestamp t r g.root hg]
    by_cases hr : r.timestamp = t <;> simp [hr]

/-- The records of one timestamp come out of a scan in the order of discovery. -/
theorem ScanSubtree_filter_timestamp (t : Int) (g : tScanSubtree) (visits : List Visit) :
    (ScanSubtree g visits).2.filter (fun x => decide (x.timestamp = t))
      = (discovered visits).filter (fun x => decide (x.timestamp = t)) := by
  rw [ScanSubtree_eq]
  simpa using insertAll_filter_timestamp t (discovered visits) { g with root := [] }
    List.Pairwise.nil

/-! ## Records and visits -/

theorem extracted_eq_some (v : Visit) (r : tFileObj) (h : extracted v = some r) :
    v.type = FTW_F ∧ v.mem.malloc_ok = true ∧ r.timestamp = v.status.st_mtim_tv_sec := by
  unfold extracted newFile at h
  by_cases ht : v.type = FTW_F
  · by_cases hm : v.mem.malloc_ok = true
    · simp only [ht, hm, if_true, Option.some.injEq] at h
      subst h
      exact ⟨ht, hm, rfl⟩
    · simp [ht, hm] at h
  · simp [ht] at h

theorem extracted_of_allocations (v : Visit) (ht : v.type = FTW_F)
    (hm : v.mem.malloc_ok = true) (hs : v.mem.strdup_ok = true) :
    extracted v = some (recordOf v) := by
  simp [extracted, newFile, recordOf, ht, hm, hs]

theorem extracted_of_other (v : Visit) (ht : v.type ≠ FTW_F) : extracted v = none := by
  simp [extracted, ht]

theorem discovered_of_allocations (visits : List Visit)
    (hmem : ∀ v ∈ visits, v.type = FTW_F →
      v.mem.malloc_ok = true ∧ v.mem.strdup_ok = true) :
    discovered visits = (visits.filter isRegular).map recordOf := by
  induction visits with
  | nil => rfl
  | cons v vs ih =>
    have ih2 := ih (fun w hw => hmem w (List.mem_cons_of_mem _ hw))
    unfold discovered at ih2 ⊢
    by_cases ht : v.type = FTW_F
    · have hv := hmem v (List.mem_cons_self _ _) ht
      rw [List.filterMap_cons, extracted_of_allocations v ht hv.1 hv.2, ih2,
        List.filter_cons_of_pos (by simpa [isRegular] using ht), List.map_cons]
    · rw [List.filterMap_cons, extracted_of_other v ht, ih2,
        List.filter_cons_of_neg (by simpa [isRegular] using ht)]

theorem discovered_timestamps_distinct (visits : List Visit)
    (hdistinct : (visits.filter isRegular).Pairwise
      (fun a b => a.status.st_mtim_tv_sec ≠ b.status.st_mtim_tv_sec)) :
    (discovered visits).Pairwise (fun a b => a.timestamp ≠ b.timestamp) := by
  unfold discovered
  rw [List.pairwise_filterMap]
  have hd : (visits.filter (fun v => decide (v.type = FTW_F))).Pairwise
      (fun a b => a.status.st_mtim_tv_sec ≠ b.status.st_mtim_tv_sec) := hdistinct
  rw [List.pairwise_filter] at hd
  refine hd.imp ?_
  intro a b hab ra hra rb hrb
  have ha := extracted_eq_some a ra (by simpa using hra)
  have hb := extracted_eq_some b rb (by simpa using hrb)
  rw [ha.2.2, hb.2.2]
  exact hab ha.1 hb.1

/-! ## The scan: order of the report -/

/-- C1: when the regular-file visits of a walk have pairwise distinct modification
times, the sequence returned by `ScanSubtree` is strictly descending by
timestamp: every record is strictly newer than every record after it, whatever
the static state held before and whatever the allocator answered. -/
theorem ScanSubtree_strictly_descending (g : tScanSubtree) (visits : List Visit)
    (hdistinct : (visits.filter isRegular).Pairwise
      (fun a b => a.status.st_mtim_tv_sec ≠ b.status.st_mtim_tv_sec)) :
    (ScanSubtree g visits).2.Pairwise (fun a b => a.timestamp > b.timestamp) := by
  have hle := (inOrder_newerThan_iff _).mp (ScanSubtree_inOrder g visits)
  have hne : (ScanSubtree g visits).2.Pairwise (fun a b => a.timestamp ≠ b.timestamp) :=
    ((ScanSubtree_perm g visits).pairwise_iff (fun {a b} h => Ne.symm h)).mpr
      (discovered_timestamps_distinct visits hdistinct)
  refine (hle.and hne).imp ?_
  intro a b hab
  have h1 : b.timestamp ≤ a.timestamp := hab.1
  have h2 : a.timestamp ≠ b.timestamp := hab.2
  omega

/-- Scenario 1 at `T = 1700000000`: the modification times are distinct, the
report is strictly descending, and it lists `b.txt` first, `a.txt` second. -/
theorem ScanSubtree_strictly_descending_witness :
    ((scenario1 1700000000).filter isRegular).Pairwise
        (fun a b => a.status.st_mtim_tv_sec ≠ b.status.st_mtim_tv_sec)
      ∧ (ScanSubtree gInit (scenario1 1700000000)).2.Pairwise
          (fun a b => a.timestamp > b.timestamp)
      ∧ (ScanSubtree gInit (scenario1 1700000000)).2.map (fun r => (r.path, r.timestamp, r.size))
          = [(some "./b.txt", 1700000060, 20), (some "./a.txt", 1700000000, 10)] :=
  ⟨by decide, ScanSubtree_strictly_descending gInit (scenario1 1700000000) (by decide),
    by decide⟩

/-- C2: two regular-file visits with equal modification times, both of which
produce a record, have their records in the returned sequence in the order of
the visits: the record of the earlier visit precedes the record of the later. -/
theorem ScanSubtree_ties_keep_discovery_order (g : tScanSubtree) (visits : List Visit)
    (v1 v2 : Visit) (r1 r2 : tFileObj)
    (hvisits : [v1, v2].Sublist visits)
    (ht1 : v1.type = FTW_F) (ht2 : v2.type = FTW_F)
    (hr1 : newFile v1.mem v1.filename v1.status v1.info = some r1)
    (hr2 : newFile v2.mem v2.filename v2.status v2.info = some r2)
    (hmtime : v1.status.st_mtim_tv_sec = v2.status.st_mtim_tv_sec) :
    [r1, r2].Sublist (ScanSubtree g visits).2 := by
  have he1 : extracted v1 = some r1 := by simp [extracted, ht1, hr1]
  have he2 : extracted v2 = some r2 := by simp [extracted, ht2, hr2]
  have hts1 : r1.timestamp = v1.status.st_mtim_tv_sec := (extracted_eq_some v1 r1 he1).2.2
  have hts2 : r2.timestamp = v1.status.st_mtim_tv_sec := by
    rw [hmtime]; exact (extracted_eq_some v2 r2 he2).2.2
  have hdisc : [r1, r2].Sublist (discovered visits) := by
    have h := hvisits.filterMap extracted
    simpa [List.filterMap_cons, he1, he2] using h
  have hfilt := hdisc.filter (fun x => decide (x.timestamp = v1.status.st_mtim_tv_sec))
  rw [← ScanSubtree_filter_timestamp _ g visits] at hfilt
  have hself : [r1, r2].filter (fun x => decide (x.timestamp = v1.status.st_mtim_tv_sec))
      = [r1, r2] := by
    simp [hts1, hts2]
  rw [hself] at hfilt
  exact hfilt.trans (List.filter_sublist _)

/-- In `tieWalk`, `x.txt` is visited before `z.txt` and both were modified at 500:
their records come out in that order, after the newer `y.txt`. -/
theorem ScanSubtree_ties_keep_discovery_order_witness :
    [recordOf (fileVisit "./x.txt" 500 1 allocOk),
        recordOf (fileVisit "./z.txt" 500 3 allocOk)].Sublist
        (ScanSubtree gInit tieWalk).2
      ∧ (ScanSubtree gInit tieWalk).2.map (fun r => r.path)
          = [some "./y.txt", some "./x.txt", some "./z.txt"] :=
  ⟨ScanSubtree_ties_keep_discovery_order gInit tieWalk
      (fileVisit "./x.txt" 500 1 allocOk) (fileVisit "./z.txt" 500 3 allocOk) _ _
      (by decide) rfl rfl rfl rfl rfl,
    by decide⟩

/-! ## The scan: content of the report -/

/-- C3: when every allocation of a walk succeeds, the sequence returned by
`ScanSubtree` holds, up to order, exactly the records of the regular-file
visits, one for each such visit; so its length is the number of regular-file
visits, its paths are the file names of those visits, and each of its records
is the record of a visit of type `FTW_F` and carries that visit's path. -/
theorem ScanSubtree_exactly_regular_files (g : tScanSubtree) (visits : List Visit)
    (hmem : ∀ v ∈ visits, v.type = FTW_F →
      v.mem.malloc_ok = true ∧ v.mem.strdup_ok = true) :
    (ScanSubtree g visits).2.Perm ((visits.filter isRegular).map recordOf)
      ∧ (ScanSubtree g visits).2.length = (visits.filter isRegular).length
      ∧ ((ScanSubtree g visits).2.map (fun r => r.path)).Perm
          ((visits.filter isRegular).map (fun v => some v.filename))
      ∧ ∀ r ∈ (ScanSubtree g visits).2,
          ∃ v ∈ visits, v.type = FTW_F ∧ r = recordOf v ∧ r.path = some v.filename := by
  have hperm : (ScanSubtree g visits).2.Perm ((visits.filter isRegular).map recordOf) := by
    rw [← discovered_of_allocations visits hmem]
    exact ScanSubtree_perm g visits
  refine ⟨hperm, ?_, ?_, ?_⟩
  · simpa using hperm.length_eq
  · have h := hperm.map (fun r => r.path)
    simpa [List.map_map, Function.comp_def, recordOf] using h
  · intro r hr
    have hr2 := (hperm.mem_iff).mp hr
    obtain ⟨v, hv, rfl⟩ := List.mem_map.mp hr2
    have hv2 := List.mem_filter.mp hv
    exact ⟨v, hv2.1, by simpa [isRegular] using hv2.2, rfl, rfl⟩

/-- Scenario 1: two regular files and the post-order visit of the root give a
report of length two, which holds no record for the directory. -/
theorem ScanSubtree_exactly_regular_files_witness :
    (∀ v ∈ scenario1 7, v.type = FTW_F →
        v.mem.malloc_ok = true ∧ v.mem.strdup_ok = true)
      ∧ (ScanSubtree gInit (scenario1 7)).2.length = 2
      ∧ (scenario1 7).length = 3
      ∧ ∀ r ∈ (ScanSubtree gInit (scenario1 7)).2,
          ∃ v ∈ scenario1 7, v.type = FTW_F ∧ r = recordOf v ∧ r.path = some v.filename :=
  ⟨by decide,
    (ScanSubtree_exactly_regular_files gInit (scenario1 7) (by decide)).2.1,
    rfl,
    (ScanSubtree_exactly_regular_files gInit (scenario1 7) (by decide)).2.2.2⟩

/-- C4: the sequence returned by `ScanSubtree` does not depend on what the
static head held before: any two prior states give the same sequence; a second
scan over the same visits, started from the state the first one left, returns
the sequence of the first; and a scan started from the state left by a scan
of any walk returns, up to order, the records discovered in its own walk and
nothing else. -/
theorem ScanSubtree_depends_only_on_visits (g : tScanSubtree) (visits : List Visit) :
    (∀ g2 : tScanSubtree, (ScanSubtree g2 visits).2 = (ScanSubtree g visits).2)
      ∧ (ScanSubtree (ScanSubtree g visits).1 visits).2 = (ScanSubtree g visits).2
      ∧ (∀ first : List Visit,
          (ScanSubtree (ScanSubtree g first).1 visits).2.Perm (discovered visits))
      ∧ (ScanSubtree (ScanSubtree g visits).1 []).2 = [] := by
  have hany : ∀ g1 g2 : tScanSubtree, (ScanSubtree g1 visits).2 = (ScanSubtree g2 visits).2 := by
    intro g1 g2
    rw [ScanSubtree_eq, ScanSubtree_eq]
    exact insertAll_root_congr newerThan _ _ _ rfl
  exact ⟨fun g2 => hany g2 g, hany _ _, fun first => ScanSubtree_perm _ visits, rfl⟩

/-! ## Where the loop puts the record -/

theorem head_dropWhile_compare (compare : tFileObj → tFileObj → Bool) (r : tFileObj)
    (l : List tFileObj) :
    ∀ c ∈ (l.dropWhile (fun c => !compare r c)).head?, compare r c = true := by
  induction l with
  | nil => simp
  | cons d l ih =>
    by_cases h : compare r d = true
    · simp [List.dropWhile, h]
    · simpa [List.dropWhile, h] using ih

theorem mem_takeWhile_compare (compare : tFileObj → tFileObj → Bool) (r : tFileObj)
    (l : List tFileObj) :
    ∀ c ∈ l.takeWhile (fun c => !compare r c), compare r c = false := by
  intro c hc
  simpa using List.mem_takeWhile_imp hc

/-- No prefix whose elements all satisfy `p` is longer than `takeWhile p`. -/
theorem prefix_length_le_takeWhile (p : tFileObj → Bool) (l q : List tFileObj)
    (hq : q <+: l) (hall : ∀ c ∈ q, p c = true) :
    q.length ≤ (l.takeWhile p).length := by
  induction l generalizing q with
  | nil => simp [List.prefix_nil.mp hq]
  | cons d l ih =>
    cases q with
    | nil => simp
    | cons e q =>
      obtain ⟨rfl, hq2⟩ := List.cons_prefix_cons.mp hq
      have he : p e = true := hall e (List.mem_cons_self _ _)
      have := ih q hq2 (fun c hc => hall c (List.mem_cons_of_mem _ hc))
      simp [List.takeWhile, he, this]

/-- After the first record that `newerThan` places behind `r`, a chain in order
holds only records older than `r`. -/
theorem dropWhile_newerThan_older (r : tFileObj) (l : List tFileObj)
    (hl : InOrder newerThan l) :
    ∀ s ∈ l.dropWhile (fun c => !newerThan r c), s.timestamp < r.timestamp := by
  induction l with
  | nil => simp
  | cons d l ih =>
    have hd : ∀ b ∈ l, b.timestamp ≤ d.timestamp :=
      (List.pairwise_cons.mp ((inOrder_newerThan_iff _).mp hl)).1
    have hl2 : InOrder newerThan l := (List.pairwise_cons.mp hl).2
    by_cases h : newerThan r d = true
    · have hlt : d.timestamp < r.timestamp := by simpa [newerThan] using h
      intro s hs
      have hs2 : s ∈ d :: l := by simpa [List.dropWhile, h] using hs
      rcases List.mem_cons.mp hs2 with rfl | hs3
      · exact hlt
      · exact lt_of_le_of_lt (hd s hs3) hlt
    · simpa [List.dropWhile, h] using ih hl2

/-! ## The collector -/

/-- C5: being in order is an invariant of `insertFile`.  For a comparator that
is irreflexive and transitive, if no record of the chain precedes a record that
the comparator places strictly before it, the same holds after `insertFile` of
a non-null record; and every chain built from the empty one by insertions with
`newerThan` has no record ahead of a strictly newer one. -/
theorem insertFile_keeps_order :
    (∀ (compare : tFileObj → tFileObj → Bool),
        (∀ a, compare a a = false) →
        (∀ a b c, compare a b = true → compare b c = true → compare a c = true) →
        ∀ (g : tScanSubtree) (r : tFileObj), InOrder compare g.root →
          InOrder compare (insertFile g (some r) compare).1.root)
      ∧ ∀ (rs : List tFileObj) (oldestFirst : Int),
          (insertAll newerThan rs { root := [], oldestFirst := oldestFirst }).root.Pairwise
            (fun a b => ¬ b.timestamp > a.timestamp) := by
  constructor
  · intro compare hirr htrans g r hg
    exact insertLoop_inOrder compare hirr htrans r g.root hg
  · intro rs oldestFirst
    have h := insertAll_inOrder newerThan newerThan_irrefl newerThan_trans rs
      { root := [], oldestFirst := oldestFirst } List.Pairwise.nil
    refine ((inOrder_newerThan_iff _).mp h).imp ?_
    intro a b hab
    omega

/-- Inserting a record of timestamp 500 into `sampleChain`, which is in order for
`newerThan`, gives a chain in order for `newerThan`. -/
theorem insertFile_keeps_order_witness :
    InOrder newerThan sampleChain.root
      ∧ InOrder newerThan
          (insertFile sampleChain (some (sampleRecord "./n.txt" 500 9)) newerThan).1.root :=
  ⟨by unfold InOrder; decide,
    insertFile_keeps_order.1 newerThan newerThan_irrefl newerThan_trans sampleChain
      (sampleRecord "./n.txt" 500 9) (by unfold InOrder; decide)⟩

/-- C6: `insertFile` of a non-null record `r` turns the chain `L` into
`P ++ [r] ++ S`, where `L = P ++ S`, every element `c` of `P` has
`compare r c` false, no longer prefix of `L` has that property, and `S` is
empty or starts with an element `c` for which `compare r c` is true. -/
theorem insertFile_splices_before_first (g : tScanSubtree) (r : tFileObj)
    (compare : tFileObj → tFileObj → Bool) :
    ∃ P S : List tFileObj,
      g.root = P ++ S
        ∧ (insertFile g (some r) compare).1.root = P ++ [r] ++ S
        ∧ (∀ c ∈ P, compare r c = false)
        ∧ (∀ q : List tFileObj, q <+: g.root → (∀ c ∈ q, compare r c = false) →
            q.length ≤ P.length)
        ∧ (∀ c ∈ S.head?, compare r c = true)
        ∧ P = g.root.takeWhile (fun c => !compare r c)
        ∧ S = g.root.dropWhile (fun c => !compare r c) := by
  refine ⟨g.root.takeWhile (fun c => !compare r c),
    g.root.dropWhile (fun c => !compare r c), ?_, ?_, ?_, ?_, ?_, rfl, rfl⟩
  · exact (List.takeWhile_append_dropWhile _ _).symm
  · simp [insertFile, insertLoop_eq_takeWhile_dropWhile]
  · exact mem_takeWhile_compare compare r g.root
  · intro q hq hall
    exact prefix_length_le_takeWhile _ g.root q hq (fun c hc => by simp [hall c hc])
  · exact head_dropWhile_compare compare r g.root

/-- C7: after `insertFile` of a non-null record `r` with `newerThan` into a chain
in order for `newerThan`, the chain is `P ++ [r] ++ S` with the old chain
`P ++ S`, every record of `P` has a timestamp greater than or equal to that of
`r`, and every record of `S` has a timestamp strictly smaller. -/
theorem insertFile_newerThan_position (g : tScanSubtree) (r : tFileObj)
    (hg : InOrder newerThan g.root) :
    ∃ P S : List tFileObj,
      g.root = P ++ S
        ∧ (insertFile g (some r) newerThan).1.root = P ++ [r] ++ S
        ∧ (∀ p ∈ P, p.timestamp ≥ r.timestamp)
        ∧ (∀ s ∈ S, s.timestamp < r.timestamp) := by
  refine ⟨g.root.takeWhile (fun c => !newerThan r c),
    g.root.dropWhile (fun c => !newerThan r c), ?_, ?_, ?_, ?_⟩
  · exact (List.takeWhile_append_dropWhile _ _).symm
  · simp [insertFile, insertLoop_eq_takeWhile_dropWhile]
  · intro p hp
    exact (newerThan_eq_false_iff r p).mp (mem_takeWhile_compare newerThan r g.root p hp)
  · exact dropWhile_newerThan_older r g.root hg

/-- A record of timestamp 500 inserted into `sampleChain` lands behind the two
records of timestamp 500 that were there and ahead of the one of timestamp 100. -/
theorem insertFile_newerThan_position_witness :
    InOrder newerThan sampleChain.root
      ∧ (∃ P S : List tFileObj,
          sampleChain.root = P ++ S
            ∧ (insertFile sampleChain (some (sampleRecord "./n.txt" 500 9)) newerThan).1.root
                = P ++ [sampleRecord "./n.txt" 500 9] ++ S
            ∧ (∀ p ∈ P, p.timestamp ≥ (sampleRecord "./n.txt" 500 9).timestamp)
            ∧ (∀ s ∈ S, s.timestamp < (sampleRecord "./n.txt" 500 9).timestamp))
      ∧ (insertFile sampleChain (some (sampleRecord "./n.txt" 500 9)) newerThan).1.root.map
            (fun x => x.path)
          = [some "./y.txt", some "./x.txt", some "./z.txt", some "./n.txt", some "./w.txt"] :=
  ⟨by unfold InOrder; decide,
    insertFile_newerThan_position sampleChain (sampleRecord "./n.txt" 500 9)
      (by unfold InOrder; decide),
    by decide⟩

/-- C8: `insertFile` of a non-null record removes and alters nothing.  The
chain afterwards has exactly one more element; the new record sits at some
position, and erasing that position gives back the previous chain, so every
earlier record is still there, in the same relative order and with the same
path, base, level, timestamp, size and blocks; the unused flag and the
returned pointer are unchanged too. -/
theorem insertFile_removes_nothing (g : tScanSubtree) (r : tFileObj)
    (compare : tFileObj → tFileObj → Bool) :
    (insertFile g (some r) compare).1.root.length = g.root.length + 1
      ∧ (∃ i : Nat, i < (insertFile g (some r) compare).1.root.length
          ∧ (insertFile g (some r) compare).1.root[i]? = some r
          ∧ (insertFile g (some r) compare).1.root.eraseIdx i = g.root)
      ∧ g.root.Sublist (insertFile g (some r) compare).1.root
      ∧ (insertFile g (some r) compare).1.oldestFirst = g.oldestFirst
      ∧ (insertFile g (some r) compare).2 = some r := by
  have hroot : (insertFile g (some r) compare).1.root
      = g.root.takeWhile (fun c => !compare r c)
          ++ r :: g.root.dropWhile (fun c => !compare r c) := by
    simp [insertFile, insertLoop_eq_takeWhile_dropWhile]
  have hsplit : g.root.takeWhile (fun c => !compare r c)
      ++ g.root.dropWhile (fun c => !compare r c) = g.root :=
    List.takeWhile_append_dropWhile _ _
  refine ⟨?_, ⟨(g.root.takeWhile (fun c => !compare r c)).length, ?_, ?_, ?_⟩, ?_, rfl, rfl⟩
  · simp [insertFile, insertLoop_length]
  · rw [hroot]; simp
  · rw [hroot, List.getElem?_append_right (le_refl _)]; simp
  · rw [hroot, List.eraseIdx_append_of_length_le (le_refl _)]
    simp
  · rw [hroot]
    conv_lhs => rw [← hsplit]
    exact (List.Sublist.refl _).append (List.sublist_cons_self _ _)

/-! ## Allocation failure -/

/-- C9 (the code at the failing input): when `malloc` succeeds and `strdup`
fails, `newFile` returns a record, not the null result, and the path of that
record is missing; such a record is inserted and returned by the scan.  Only a
failure of `malloc` makes `newFile` return the null result. -/
theorem newFile_strdup_failure_returns_record (filename : String) (status : Stat)
    (info : FTW) :
    newFile { malloc_ok := true, strdup_ok := false } filename status info
        = some { path := none, base := info.base, level := info.level,
                 timestamp := status.st_mtim_tv_sec, size := status.st_size,
                 blocks := status.st_blocks }
      ∧ (∀ mem : Alloc, newFile mem filename status info = none ↔ mem.malloc_ok = false)
      ∧ (ScanSubtree gInit
            [fileVisit "./a.txt" 1700000000 10 { malloc_ok := true, strdup_ok := false }]).2
          = [{ path := none, base := 2, level := 1, timestamp := 1700000000, size := 10,
               blocks := 8 }] := by
  refine ⟨rfl, ?_, by decide⟩
  intro mem
  cases hm : mem.malloc_ok <;> simp [newFile, hm]

/-- C10: `insertFile` called with the null record leaves the static state as it
was and returns the null record; so a regular-file visit for which `newFile`
returns the null record leaves the state unchanged, `nftwCallback` returns 0
for it, and the walk goes on with the remaining visits from the same state. -/
theorem insertFile_null_leaves_collection (g : tScanSubtree)
    (compare : tFileObj → tFileObj → Bool) (v : Visit) (vs : List Visit)
    (htype : v.type = FTW_F)
    (hfail : newFile v.mem v.filename v.status v.info = none) :
    insertFile g none compare = (g, none)
      ∧ nftwCallback g v.mem v.filename v.status v.type v.info = (g, 0)
      ∧ nftw nftwCallback (v :: vs) g = nftw nftwCallback vs g := by
  have hcb : nftwCallback g v.mem v.filename v.status v.type v.info = (g, 0) := by
    simp [nftwCallback, htype, hfail, insertFile]
  refine ⟨rfl, hcb, ?_⟩
  simp [nftw, hcb]

/-- A walk in which `malloc` fails for `a.txt`: the chain is untouched by that
visit and the scan goes on to record `b.txt`. -/
theorem insertFile_null_leaves_collection_witness :
    (fileVisit "./a.txt" 5 10 { malloc_ok := false, strdup_ok := true }).type = FTW_F
      ∧ newFile { malloc_ok := false, strdup_ok := true } "./a.txt"
          (fileVisit "./a.txt" 5 10 { malloc_ok := false, strdup_ok := true }).status
          (fileVisit "./a.txt" 5 10 { malloc_ok := false, strdup_ok := true }).info = none
      ∧ (insertFile sampleChain none newerThan = (sampleChain, none)
          ∧ nftwCallback sampleChain { malloc_ok := false, strdup_ok := true } "./a.txt"
              (fileVisit "./a.txt" 5 10 { malloc_ok := false, strdup_ok := true }).status
              FTW_F
              (fileVisit "./a.txt" 5 10 { malloc_ok := false, strdup_ok := true }).info
            = (sampleChain, 0)
          ∧ nftw nftwCallback
              [fileVisit "./a.txt" 5 10 { malloc_ok := false, strdup_ok := true },
                fileVisit "./b.txt" 65 20 allocOk] sampleChain
            = nftw nftwCallback [fileVisit "./b.txt" 65 20 allocOk] sampleChain)
      ∧ (ScanSubtree gInit
            [fileVisit "./a.txt" 5 10 { malloc_ok := false, strdup_ok := true },
              fileVisit "./b.txt" 65 20 allocOk]).2.map (fun x => x.path)
          = [some "./b.txt"] :=
  ⟨rfl, rfl,
    insertFile_null_leaves_collection sampleChain newerThan
      (fileVisit "./a.txt" 5 10 { malloc_ok := false, strdup_ok := true })
      [fileVisit "./b.txt" 65 20 allocOk] rfl rfl,
    by decide⟩

/-! ## Visits of other types -/

/-- C11: for a visit whose type code is not `FTW_F`, `nftwCallback` leaves the
static state unchanged and returns 0; this covers the six other codes of
`<ftw.h>` and every unknown code.  For a visit of any type it returns 0, so
`nftw` is never stopped: it returns 0 after the callback has seen every visit. -/
theorem nftwCallback_ignores_other_types (g : tScanSubtree) (mem : Alloc)
    (filename : String) (status : Stat) (type : Int) (info : FTW) :
    (type ≠ FTW_F → nftwCallback g mem filename status type info = (g, 0))
      ∧ (∀ t ∈ [FTW_D, FTW_DNR, FTW_NS, FTW_SL, FTW_DP, FTW_SLN],
          nftwCallback g mem filename status t info = (g, 0))
      ∧ (nftwCallback g mem filename status type info).2 = 0
      ∧ ∀ visits : List Visit,
          nftw nftwCallback visits g = (insertAll newerThan (discovered visits) g, 0) := by
  refine ⟨?_, ?_, ?_, ?_⟩
  · intro ht
    simp [nftwCallback, ht]
  · intro t ht
    have hne : t ≠ FTW_F := by
      simp only [List.mem_cons, List.mem_singleton, List.not_mem_nil, or_false] at ht
      rcases ht with rfl | rfl | rfl | rfl | rfl | rfl <;> decide
    simp [nftwCallback, hne]
  · unfold nftwCallback
    split <;> rfl
  · intro visits
    exact nftw_nftwCallback visits g

/-- The post-order visit of a directory and a visit with the unknown code 99
leave `sampleChain` as it was. -/
theorem nftwCallback_ignores_other_types_witness :
    (99 : Int) ≠ FTW_F
      ∧ nftwCallback sampleChain allocOk "./sub" (dirVisit "./sub" 900).status 99
          (dirVisit "./sub" 900).info = (sampleChain, 0)
      ∧ nftwCallback sampleChain allocOk "./sub" (dirVisit "./sub" 900).status FTW_DP
          (dirVisit "./sub" 900).info = (sampleChain, 0) :=
  ⟨by decide,
    (nftwCallback_ignores_other_types sampleChain allocOk "./sub"
      (dirVisit "./sub" 900).status 99 (dirVisit "./sub" 900).info).1 (by decide),
    by decide⟩

/-! ## The last path element -/

theorem getLastPathElementLoop_of_no_slash (result p : List Char) (h : '/' ∉ p) :
    getLastPathElementLoop result p = result := by
  induction p generalizing result with
  | nil => rfl
  | cons c rest ih =>
    have hc : c ≠ '/' := fun hc => h (by simp [hc])
    have hrest : '/' ∉ rest := fun hr => h (List.mem_cons_of_mem _ hr)
    simp only [getLastPathElementLoop, hc, if_false]
    exact ih result hrest

theorem getLastPathElementLoop_of_slash (result p : List Char) (h : '/' ∈ p) :
    '/' ∉ getLastPathElementLoop result p
      ∧ ∃ pre : List Char, p = pre ++ '/' :: getLastPathElementLoop result p := by
  induction p generalizing result with
  | nil => simp at h
  | cons c rest ih =>
    by_cases hc : c = '/'
    · subst hc
      simp only [getLastPathElementLoop, if_true]
      by_cases hrest : '/' ∈ rest
      · obtain ⟨hno, pre, hpre⟩ := ih rest hrest
        exact ⟨hno, '/' :: pre, by rw [List.cons_append, ← hpre]⟩
      · rw [getLastPathElementLoop_of_no_slash rest rest hrest]
        exact ⟨hrest, [], rfl⟩
    · have hrest : '/' ∈ rest := by
        rcases List.mem_cons.mp h with h1 | h1
        · exact absurd h1.symm hc
        · exact h1
      simp only [getLastPathElementLoop, hc, if_false]
      obtain ⟨hno, pre, hpre⟩ := ih result hrest
      exact ⟨hno, c :: pre, by rw [List.cons_append, ← hpre]⟩

/-- C17: `getLastPathElement s` is the text of `s` after its last `/`.  It
contains no `/`; `s` is a prefix, empty or ending in `/`, followed by it; it is
`s` itself when `s` has no `/`, and empty when `s` ends in `/`. -/
theorem getLastPathElement_after_last_slash (s : String) :
    '/' ∉ (getLastPathElement s).data
      ∧ (∃ pre : String, s = pre ++ getLastPathElement s
          ∧ (pre = "" ∨ pre.data.getLast? = some '/'))
      ∧ ('/' ∉ s.data → getLastPathElement s = s)
      ∧ (s.data.getLast? = some '/' → getLastPathElement s = "") := by
  have hnone : '/' ∉ s.data → getLastPathElement s = s := by
    intro h
    unfold getLastPathElement
    rw [getLastPathElementLoop_of_no_slash _ _ h]
  by_cases h : '/' ∈ s.data
  · obtain ⟨hno, pre, hpre⟩ := getLastPathElementLoop_of_slash s.data s.data h
    refine ⟨hno, ⟨String.mk (pre ++ ['/']), ?_, Or.inr (by simp)⟩, hnone, ?_⟩
    · apply String.ext
      rw [String.data_append]
      simp only [getLastPathElement, List.append_assoc, List.singleton_append]
      exact hpre
    · intro hlast
      unfold getLastPathElement
      cases hres : getLastPathElementLoop s.data s.data with
      | nil => rfl
      | cons d ds =>
        exfalso
        rw [hres] at hpre hno
        have hl : s.data.getLast? = (d :: ds).getLast? := by
          have hsome : (d :: ds).getLast? = some ((d :: ds).getLast (by simp)) :=
            List.getLast?_eq_getLast _ _
          rw [hpre]
          simp [List.getLast?_append, List.getLast?_cons_cons, hsome]
        rw [hl] at hlast
        exact hno (List.mem_of_getLast?_eq_some hlast)
  · refine ⟨by rw [hnone h]; exact h, ⟨"", ?_, Or.inl rfl⟩, hnone, ?_⟩
    · rw [hnone h]; simp
    · intro hlast
      exact absurd (List.mem_of_getLast?_eq_some hlast) h

/-- The program invoked as `/usr/bin/organize`, as `organize` and as `dir/`. -/
theorem getLastPathElement_after_last_slash_witness :
    '/' ∉ "organize".data
      ∧ "dir/".data.getLast? = some '/'
      ∧ getLastPathElement "organize" = "organize"
      ∧ getLastPathElement "dir/" = ""
      ∧ getLastPathElement "/usr/bin/organize" = "organize" :=
  ⟨by decide, by decide,
    (getLastPathElement_after_last_slash "organize").2.2.1 (by decide),
    (getLastPathElement_after_last_slash "dir/").2.2.2 (by decide),
    by decide⟩

/-! ## The report -/

theorem dumpLoop_eq_some_iff (localTime : Int → Option String) (file : List tFileObj)
    (lines : List String) :
    dumpLoop localTime file = some lines
      ↔ file.map (dumpLine localTime) = lines.map some := by
  induction file generalizing lines with
  | nil =>
    cases lines with
    | nil => simp [dumpLoop]
    | cons l ls => simp [dumpLoop]
  | cons p next ih =>
    cases hline : dumpLine localTime p with
    | none =>
      cases lines with
      | nil => simp [dumpLoop, hline]
      | cons l ls => simp [dumpLoop, hline]
    | some line =>
      cases hrest : dumpLoop localTime next with
      | none =>
        cases lines with
        | nil => simp [dumpLoop, hline, hrest]
        | cons l ls =>
          have hno : ¬ next.map (dumpLine localTime) = ls.map some := by
            intro h
            have := (ih ls).mpr h
            rw [hrest] at this
            exact Option.noConfusion this
          simp [dumpLoop, hline, hrest, hno]
      | some rest =>
        have hrest2 := (ih rest).mp hrest
        cases lines with
        | nil => simp [dumpLoop, hline, hrest]
        | cons l ls =>
          simp only [dumpLoop, hline, hrest, Option.some.injEq, List.cons.injEq,
            List.map_cons, hrest2]
          constructor
          · rintro ⟨h1, h2⟩
            exact ⟨h1, by rw [h2]⟩
          · rintro ⟨h1, h2⟩
            exact ⟨h1, List.map_injective_iff.mpr (Option.some_injective _) h2⟩

/-- The loop comes to its end when `localtime_r` converts every timestamp. -/
theorem dumpLoop_of_times (localTime : Int → Option String) (file : List tFileObj)
    (htime : ∀ p ∈ file, (localTime p.timestamp).isSome = true) :
    ∃ lines : List String, dumpLoop localTime file = some lines := by
  induction file with
  | nil => exact ⟨[], rfl⟩
  | cons p next ih =>
    obtain ⟨rest, hrest⟩ := ih (fun q hq => htime q (List.mem_cons_of_mem _ hq))
    obtain ⟨ts, hts⟩ := Option.isSome_iff_exists.mp (htime p (List.mem_cons_self _ _))
    exact ⟨(ts ++ " " ++ format_12ld p.size ++ " " ++ format_s p.path ++ "\n") :: rest,
      by simp [dumpLoop, dumpLine, hts, hrest]⟩

theorem dumpSubtree_of_times (localTime : Int → Option String) (file : List tFileObj)
    (htime : ∀ p ∈ file, (localTime p.timestamp).isSome = true) :
    ∃ lines : List String, dumpSubtree localTime file = some (file, lines)
      ∧ file.map (dumpLine localTime) = lines.map some := by
  obtain ⟨lines, hlines⟩ := dumpLoop_of_times localTime file htime
  exact ⟨lines, by simp [dumpSubtree, hlines],
    (dumpLoop_eq_some_iff localTime file lines).mp hlines⟩

theorem format_12ld_length (n : Int) :
    (format_12ld n).length = max 12 (toString n).length := by
  simp only [format_12ld, String.length_append, String.length_mk, List.length_replicate]
  omega

/-- C13 as stated fails for a large file: a size of `10 ^ 12` bytes has 13
digits, `%12ld` prints them all, and the size field of the line is 13 columns
wide, not 12.  It also fails for a record whose timestamp `localtime_r` does not
convert, here `10 ^ 17` seconds in the time zone UTC: `dumpSubtree` does not
return and the line of that record is never written. -/
theorem dumpSubtree_size_field_wider_than_12 :
    (format_12ld 1000000000000).length ≠ 12
      ∧ dumpLine sampleLocalTime (sampleRecord "./big.ts" 1700000000 1000000000000)
          = some "2023-11-14 22:13:20 1000000000000 ./big.ts\n"
      ∧ dumpLine sampleLocalTime (sampleRecord "./b.txt" 1700000000 999999999999)
          = some "2023-11-14 22:13:20 999999999999 ./b.txt\n"
      ∧ dumpSubtree sampleLocalTime
            [sampleRecord "./far.txt" 100000000000000000 20,
              sampleRecord "./b.txt" 1700000000 10]
          = none := by
  decide

/-- C13 (amended): for a chain of records whose timestamps `localtime_r` converts,
`dumpSubtree` returns the chain it was given, unchanged, after writing one text
per record, in the order of the chain.  The text for a record with a path is
the rendered timestamp, one space, the size field, one space, the path and a
newline; the size field is the decimal size behind the spaces that fill it up
to 12 columns, so it is at least 12 columns wide, and exactly 12 whenever the
decimal size has at most 12 characters. -/
theorem dumpSubtree_one_line_per_record (localTime : Int → Option String)
    (file : List tFileObj)
    (htime : ∀ p ∈ file, (localTime p.timestamp).isSome = true) :
    ∃ lines : List String,
      dumpSubtree localTime file = some (file, lines)
        ∧ lines.length = file.length
        ∧ (∀ (i : Nat) (p : tFileObj) (timeAsString path : String),
            file[i]? = some p → localTime p.timestamp = some timeAsString →
            p.path = some path →
            lines[i]?
              = some (timeAsString ++ " "
                  ++ (String.mk (List.replicate (12 - (toString p.size).length) ' ')
                        ++ toString p.size)
                  ++ " " ++ path ++ "\n"))
        ∧ (∀ n : Int, (format_12ld n).length = max 12 (toString n).length)
        ∧ (∀ n : Int, (toString n).length ≤ 12 → (format_12ld n).length = 12) := by
  obtain ⟨lines, hdump, hmap⟩ := dumpSubtree_of_times localTime file htime
  refine ⟨lines, hdump, ?_, ?_, format_12ld_length, ?_⟩
  · have h := congrArg List.length hmap
    simpa using h.symm
  · intro i p timeAsString path hp hts hpath
    have h := congrArg (fun l => l[i]?) hmap
    simp only [List.getElem?_map, hp, Option.map_some'] at h
    cases hl : lines[i]? with
    | none => rw [hl] at h; simp at h
    | some line =>
      rw [hl] at h
      simp only [Option.map_some', Option.some.injEq] at h
      rw [← h]
      simp [dumpLine, hts, format_12ld, format_s, hpath]
  · intro n hn
    rw [format_12ld_length]
    omega

/-- The report of scenario 1, rendered in UTC: two lines, newest first, sizes
right-aligned in 12 columns. -/
theorem dumpSubtree_one_line_per_record_witness :
    (∀ p ∈ (ScanSubtree gInit (scenario1 1700000000)).2,
        (sampleLocalTime p.timestamp).isSome = true)
      ∧ (∃ lines : List String,
          dumpSubtree sampleLocalTime (ScanSubtree gInit (scenario1 1700000000)).2
              = some ((ScanSubtree gInit (scenario1 1700000000)).2, lines)
            ∧ lines.length = (ScanSubtree gInit (scenario1 1700000000)).2.length)
      ∧ dumpSubtree sampleLocalTime (ScanSubtree gInit (scenario1 1700000000)).2
          = some ((ScanSubtree gInit (scenario1 1700000000)).2,
              ["2023-11-14 22:14:20           20 ./b.txt\n",
               "2023-11-14 22:13:20           10 ./a.txt\n"]) :=
  ⟨by decide,
    (dumpSubtree_one_line_per_record sampleLocalTime
        (ScanSubtree gInit (scenario1 1700000000)).2 (by decide)).imp
      (fun _ h => ⟨h.1, h.2.1⟩),
    by decide⟩

/-! ## The extractor -/

/-- C14: when both allocations succeed, `newFile` returns a record whose path
is the file name as the traversal gave it, whose base and level are the base
offset and the depth of the traversal, whose timestamp is the seconds of the
modification time of the stat, and whose size and blocks are `st_size` and
`st_blocks`; the pointer designates that record alone, with no record after
it. -/
theorem newFile_copies_fields (mem : Alloc) (filename : String) (status : Stat) (info : FTW)
    (hmalloc : mem.malloc_ok = true) (hstrdup : mem.strdup_ok = true) :
    ∃ r : tFileObj,
      newFile mem filename status info = some r
        ∧ r.path = some filename
        ∧ r.base = info.base
        ∧ r.level = info.level
        ∧ r.timestamp = status.st_mtim_tv_sec
        ∧ r.size = status.st_size
        ∧ r.blocks = status.st_blocks
        ∧ (newFile mem filename status info).toList = [r] := by
  refine ⟨{ path := some filename, base := info.base, level := info.level,
            timestamp := status.st_mtim_tv_sec, size := status.st_size,
            blocks := status.st_blocks }, ?_, rfl, rfl, rfl, rfl, rfl, rfl, ?_⟩
  · simp [newFile, hmalloc, hstrdup]
  · simp [newFile, hmalloc, hstrdup]

/-- Scenario 2: the record of `c.txt` keeps the prefix `sub/` of its path, and
the report lists it before `a.txt`. -/
theorem newFile_copies_fields_witness :
    allocOk.malloc_ok = true ∧ allocOk.strdup_ok = true
      ∧ (∃ r : tFileObj,
          newFile allocOk "./sub/c.txt"
              { st_mtim_tv_sec := 1700000120, st_size := 30, st_blocks := 8 }
              { base := 6, level := 2 } = some r
            ∧ r.path = some "./sub/c.txt"
            ∧ r.base = 6
            ∧ r.level = 2
            ∧ r.timestamp = 1700000120
            ∧ r.size = 30
            ∧ r.blocks = 8
            ∧ (newFile allocOk "./sub/c.txt"
                { st_mtim_tv_sec := 1700000120, st_size := 30, st_blocks := 8 }
                { base := 6, level := 2 }).toList = [r])
      ∧ (ScanSubtree gInit (scenario2 1700000000)).2.map (fun r => r.path)
          = [some "./sub/c.txt", some "./a.txt"] :=
  ⟨rfl, rfl,
    newFile_copies_fields allocOk "./sub/c.txt"
      { st_mtim_tv_sec := 1700000120, st_size := 30, st_blocks := 8 }
      { base := 6, level := 2 } rfl rfl,
    by decide⟩

/-! ## The entry point -/

/-- C12 as stated fails for the empty argument vector (`argc = 0`): `argv[0]` is
the null pointer, `getLastPathElement` reads through it before `argc` is
looked at, and `main` returns no status at all.  It also fails for a path whose
tree holds a file with a modification time that `localtime_r` does not
convert, here `10 ^ 17` seconds in the time zone UTC: the process is killed in
`dumpSubtree` and `main` does not return 0. -/
theorem main_without_program_name :
    ([] : List String).length ≤ 1
      ∧ main sampleLocalTime sampleWalk gInit [] = none
      ∧ (¬ ∃ r : tRun, main sampleLocalTime sampleWalk gInit [] = some r ∧ r.result ≠ 0)
      ∧ main sampleLocalTime farWalk gInit ["./organize", "."] = none := by
  refine ⟨by decide, rfl, ?_, by decide⟩
  rintro ⟨r, hr, -⟩
  simp [main] at hr

/-- C12 (amended): for an argument vector that holds at least the program name
(`argc ≥ 1`), `main` returns -1 when there is no path argument (`argc = 1`),
leaving the static state untouched and `stdout` empty whatever the file system
holds, after the usage text went to `stderr`.  When there is one (`argc > 1`)
it runs `ScanSubtree` on `argv[1]` and `dumpSubtree` on the sequence that scan
returned, and when `dumpSubtree` returns, which it does when `localtime_r`
converts the timestamp of every record of that sequence, `main` returns 0, the
static state is the one `ScanSubtree` left, and `stdout` holds what
`dumpSubtree` wrote. -/
theorem main_usage_or_scan (localTime : Int → Option String) (walk : String → List Visit)
    (g : tScanSubtree) (argv : List String) (hargc : 1 ≤ argv.length) :
    (argv.length ≤ 1 →
        ∃ r : tRun, main localTime walk g argv = some r
          ∧ r.result = -1 ∧ r.result ≠ 0 ∧ r.g = g ∧ r.stdout = []
          ∧ r.stderr.getLast? = some usage
          ∧ ∀ walk2 : String → List Visit, main localTime walk2 g argv = some r)
      ∧ (1 < argv.length →
          ∃ path : String, argv[1]? = some path
            ∧ (∀ lines : List String,
                dumpSubtree localTime (ScanSubtree g (walk path)).2
                    = some ((ScanSubtree g (walk path)).2, lines) →
                ∃ r : tRun, main localTime walk g argv = some r
                  ∧ r.result = 0
                  ∧ r.g = (ScanSubtree g (walk path)).1
                  ∧ r.stdout = lines)
            ∧ ((∀ p ∈ (ScanSubtree g (walk path)).2,
                  (localTime p.timestamp).isSome = true) →
                ∃ (r : tRun) (lines : List String),
                  main localTime walk g argv = some r
                    ∧ r.result = 0
                    ∧ r.g = (ScanSubtree g (walk path)).1
                    ∧ dumpSubtree localTime (ScanSubtree g (walk path)).2
                        = some ((ScanSubtree g (walk path)).2, lines)
                    ∧ r.stdout = lines)) := by
  cases argv with
  | nil => simp at hargc
  | cons arg0 rest =>
    cases rest with
    | nil =>
      have hne : (-1 : Int) ≠ 0 := by decide
      refine ⟨fun _ => ⟨_, rfl, rfl, hne, rfl, rfl, rfl, fun _ => rfl⟩, ?_⟩
      intro h
      simp at h
    | cons path more =>
      have hpath : (arg0 :: path :: more)[1]? = some path := by simp
      have hret : ∀ lines : List String,
          dumpSubtree localTime (ScanSubtree g (walk path)).2
              = some ((ScanSubtree g (walk path)).2, lines) →
          ∃ r : tRun, main localTime walk g (arg0 :: path :: more) = some r
            ∧ r.result = 0
            ∧ r.g = (ScanSubtree g (walk path)).1
            ∧ r.stdout = lines := by
        intro lines hlines
        refine ⟨{ result := 0, g := (ScanSubtree g (walk path)).1, stdout := lines,
                  stderr := ["invoked as \x27" ++ getLastPathElement arg0 ++ "\x27\n"] },
          ?_, rfl, rfl, rfl⟩
        simp only [main, hlines]
      refine ⟨?_, fun _ => ⟨path, hpath, hret, ?_⟩⟩
      · intro h
        simp at h
      · intro htime
        obtain ⟨lines, hlines, -⟩ := dumpSubtree_of_times localTime _ htime
        obtain ⟨r, hr, h0, hg, hout⟩ := hret lines hlines
        exact ⟨r, lines, hr, h0, hg, hlines, hout⟩

/-- Scenario 3 and scenario 1: the program run with no argument, and with the
path `.` of a root that holds `a.txt` and `b.txt`. -/
theorem main_usage_or_scan_witness :
    1 ≤ ["./organize"].length
      ∧ main sampleLocalTime sampleWalk gInit ["./organize"]
          = some { result := -1, g := gInit, stdout := [],
                   stderr := ["invoked as \x27organize\x27\n", "Say what?\n"] }
      ∧ (∃ r : tRun, main sampleLocalTime sampleWalk gInit ["./organize"] = some r
          ∧ r.result = -1 ∧ r.result ≠ 0 ∧ r.g = gInit ∧ r.stdout = []
          ∧ r.stderr.getLast? = some usage
          ∧ ∀ walk2 : String → List Visit,
              main sampleLocalTime walk2 gInit ["./organize"] = some r)
      ∧ (∀ p ∈ (ScanSubtree gInit (sampleWalk ".")).2,
          (sampleLocalTime p.timestamp).isSome = true)
      ∧ (main sampleLocalTime sampleWalk gInit ["./organize", "."]).map
            (fun r => (r.result, r.stdout))
          = some (0, ["2023-11-14 22:14:20           20 ./b.txt\n",
                      "2023-11-14 22:13:20           10 ./a.txt\n"]) :=
  ⟨by decide, by decide,
    (main_usage_or_scan sampleLocalTime sampleWalk gInit ["./organize"] (by decide)).1
      (by decide),
    by decide,
    by decide⟩

/-! ## The scan as a stable sort -/

/-- Two chains that are both in descending order and hold, for every timestamp,
the same records of that timestamp in the same order, are equal. -/
theorem eq_of_descending_of_filter_eq (l1 l2 : List tFileObj)
    (h1 : l1.Pairwise (fun a b => a.timestamp ≥ b.timestamp))
    (h2 : l2.Pairwise (fun a b => a.timestamp ≥ b.timestamp))
    (hf : ∀ t : Int, l1.filter (fun x => decide (x.timestamp = t))
      = l2.filter (fun x => decide (x.timestamp = t))) :
    l1 = l2 := by
  induction l1 generalizing l2 with
  | nil =>
    cases l2 with
    | nil => rfl
    | cons b l2 =>
      have h := hf b.timestamp
      simp at h
  | cons a l1 ih =>
    cases l2 with
    | nil =>
      have h := hf a.timestamp
      simp at h
    | cons b l2 =>
      have ha : ∀ x ∈ l1, a.timestamp ≥ x.timestamp := (List.pairwise_cons.mp h1).1
      have hb : ∀ x ∈ l2, b.timestamp ≥ x.timestamp := (List.pairwise_cons.mp h2).1
      have hts : a.timestamp = b.timestamp := by
        by_contra hne
        have hbin : b ∈ (a :: l1).filter (fun x => decide (x.timestamp = b.timestamp)) := by
          rw [hf b.timestamp]; simp
        have hain : a ∈ (b :: l2).filter (fun x => decide (x.timestamp = a.timestamp)) := by
          rw [← hf a.timestamp]; simp
        have hb1 : b ∈ l1 := by
          rcases List.mem_cons.mp (List.mem_filter.mp hbin).1 with h | h
          · exact absurd (by rw [h]) hne
          · exact h
        have ha2 : a ∈ l2 := by
          rcases List.mem_cons.mp (List.mem_filter.mp hain).1 with h | h
          · exact absurd (by rw [h]) hne
          · exact h
        have := ha b hb1
        have := hb a ha2
        omega
      have hab : a = b := by
        have h := hf a.timestamp
        rw [List.filter_cons_of_pos (by simp), List.filter_cons_of_pos (by simp [hts])] at h
        exact (List.cons.inj h).1
      subst hab
      have htail : ∀ t : Int, l1.filter (fun x => decide (x.timestamp = t))
          = l2.filter (fun x => decide (x.timestamp = t)) := by
        intro t
        have h := hf t
        by_cases hat : a.timestamp = t
        · rw [List.filter_cons_of_pos (by simpa using hat),
            List.filter_cons_of_pos (by simpa using hat)] at h
          exact (List.cons.inj h).2
        · rw [List.filter_cons_of_neg (by simpa using hat),
            List.filter_cons_of_neg (by simpa using hat)] at h
          exact h
      rw [ih l2 (List.pairwise_cons.mp h1).2 (List.pairwise_cons.mp h2).2 htail]

/-- A rearrangement of `l` that keeps every descending sublist of `l` in place
holds the records of each timestamp in the order of `l`. -/
theorem filter_timestamp_of_stable (t : Int) (l s : List tFileObj) (hperm : s.Perm l)
    (hstable : ∀ c : List tFileObj, c.Pairwise (fun a b => a.timestamp ≥ b.timestamp) →
      c.Sublist l → c.Sublist s) :
    s.filter (fun x => decide (x.timestamp = t))
      = l.filter (fun x => decide (x.timestamp = t)) := by
  have hpw : (l.filter (fun x => decide (x.timestamp = t))).Pairwise
      (fun a b => a.timestamp ≥ b.timestamp) := by
    apply List.pairwise_of_forall_mem_list
    intro a ha b hb
    have h1 : a.timestamp = t := by simpa using (List.mem_filter.mp ha).2
    have h2 : b.timestamp = t := by simpa using (List.mem_filter.mp hb).2
    omega
  have hsub := (hstable _ hpw (List.filter_sublist _)).filter
    (fun x => decide (x.timestamp = t))
  simp only [List.filter_filter, Bool.and_self] at hsub
  have hlen := (hperm.filter (fun x => decide (x.timestamp = t))).length_eq
  exact (hsub.eq_of_length hlen.symm).symm

/-- The scan returns every chain that is a stable sort, by descending timestamp,
of the records discovered: in descending order, a rearrangement of them, and
keeping every descending sublist of them in place. -/
theorem ScanSubtree_eq_of_stable_sort (g : tScanSubtree) (visits : List Visit)
    (s : List tFileObj)
    (hsorted : s.Pairwise (fun a b => a.timestamp ≥ b.timestamp))
    (hperm : s.Perm (discovered visits))
    (hstable : ∀ c : List tFileObj, c.Pairwise (fun a b => a.timestamp ≥ b.timestamp) →
      c.Sublist (discovered visits) → c.Sublist s) :
    (ScanSubtree g visits).2 = s := by
  apply eq_of_descending_of_filter_eq
  · exact (inOrder_newerThan_iff _).mp (ScanSubtree_inOrder g visits)
  · exact hsorted
  · intro t
    rw [ScanSubtree_filter_timestamp, filter_timestamp_of_stable t _ s hperm hstable]

theorem stableSortNewestFirst_spec (l : List tFileObj) :
    (stableSortNewestFirst l).Pairwise (fun a b => a.timestamp ≥ b.timestamp)
      ∧ (stableSortNewestFirst l).Perm l
      ∧ ∀ c : List tFileObj, c.Pairwise (fun a b => a.timestamp ≥ b.timestamp) →
          c.Sublist l → c.Sublist (stableSortNewestFirst l) := by
  haveI : IsTotal tFileObj (fun a b => a.timestamp ≥ b.timestamp) :=
    ⟨fun a b => le_total b.timestamp a.timestamp⟩
  haveI : IsTrans tFileObj (fun a b => a.timestamp ≥ b.timestamp) :=
    ⟨fun a b c hab hbc => le_trans hbc hab⟩
  refine ⟨List.sorted_insertionSort _ l, List.perm_insertionSort _ l, ?_⟩
  intro c hc hsub
  exact List.sublist_insertionSort hc hsub

theorem mergeSort_newestFirst_spec (l : List tFileObj) :
    (l.mergeSort (fun a b => decide (a.timestamp ≥ b.timestamp))).Pairwise
        (fun a b => a.timestamp ≥ b.timestamp)
      ∧ (l.mergeSort (fun a b => decide (a.timestamp ≥ b.timestamp))).Perm l
      ∧ ∀ c : List tFileObj, c.Pairwise (fun a b => a.timestamp ≥ b.timestamp) →
          c.Sublist l →
          c.Sublist (l.mergeSort (fun a b => decide (a.timestamp ≥ b.timestamp))) := by
  have htrans : ∀ a b c : tFileObj,
      decide (a.timestamp ≥ b.timestamp) = true → decide (b.timestamp ≥ c.timestamp) = true →
      decide (a.timestamp ≥ c.timestamp) = true := by
    intro a b c hab hbc
    simp only [decide_eq_true_eq] at *
    omega
  have htotal : ∀ a b : tFileObj,
      (decide (a.timestamp ≥ b.timestamp) || decide (b.timestamp ≥ a.timestamp)) = true := by
    intro a b
    simp only [Bool.or_eq_true, decide_eq_true_eq]
    omega
  refine ⟨?_, List.mergeSort_perm l _, ?_⟩
  · exact (List.sorted_mergeSort htrans htotal l).imp (fun h => by simpa using h)
  · intro c hc hsub
    exact List.sublist_mergeSort htrans htotal (hc.imp (fun h => by simpa using h)) hsub

/-- C15: when every allocation of a walk succeeds, the sequence returned by
`ScanSubtree` is the reference stable sort, by descending timestamp, of the
records of the regular-file visits taken in the order of discovery; it is also
what the merge sort of the library yields for them.  Whatever the allocator
answers, it is the reference stable sort of the records discovered. -/
theorem ScanSubtree_is_stable_sort (g : tScanSubtree) (visits : List Visit)
    (hmem : ∀ v ∈ visits, v.type = FTW_F →
      v.mem.malloc_ok = true ∧ v.mem.strdup_ok = true) :
    (ScanSubtree g visits).2
        = stableSortNewestFirst ((visits.filter isRegular).map recordOf)
      ∧ (ScanSubtree g visits).2
          = ((visits.filter isRegular).map recordOf).mergeSort
              (fun a b => decide (a.timestamp ≥ b.timestamp))
      ∧ (ScanSubtree g visits).2 = stableSortNewestFirst (discovered visits) := by
  have hdisc := discovered_of_allocations visits hmem
  have hins := stableSortNewestFirst_spec (discovered visits)
  have hmerge := mergeSort_newestFirst_spec (discovered visits)
  refine ⟨?_, ?_, ?_⟩
  · rw [← hdisc]
    exact ScanSubtree_eq_of_stable_sort g visits _ hins.1 hins.2.1 hins.2.2
  · rw [← hdisc]
    exact ScanSubtree_eq_of_stable_sort g visits _ hmerge.1 hmerge.2.1 hmerge.2.2
  · exact ScanSubtree_eq_of_stable_sort g visits _ hins.1 hins.2.1 hins.2.2

/-- The walk `tieWalk`, with two files modified in the same second: the scan and
the reference stable sort both give `y.txt`, `x.txt`, `z.txt`. -/
theorem ScanSubtree_is_stable_sort_witness :
    (∀ v ∈ tieWalk, v.type = FTW_F →
        v.mem.malloc_ok = true ∧ v.mem.strdup_ok = true)
      ∧ (ScanSubtree gInit tieWalk).2
          = stableSortNewestFirst ((tieWalk.filter isRegular).map recordOf)
      ∧ (stableSortNewestFirst ((tieWalk.filter isRegular).map recordOf)).map
            (fun r => r.path)
          = [some "./y.txt", some "./x.txt", some "./z.txt"] :=
  ⟨by decide, (ScanSubtree_is_stable_sort gInit tieWalk (by decide)).1, by decide⟩

/-! ## Independence of the order of discovery -/

theorem ScanSubtree_descending_of_distinct (g : tScanSubtree) (visits : List Visit)
    (hdistinct : (visits.filter isRegular).Pairwise
      (fun a b => a.status.st_mtim_tv_sec ≠ b.status.st_mtim_tv_sec)) :
    (ScanSubtree g visits).2.Pairwise (fun a b => a.timestamp > b.timestamp) := by
  have hle := (inOrder_newerThan_iff _).mp (ScanSubtree_inOrder g visits)
  have hne : (ScanSubtree g visits).2.Pairwise (fun a b => a.timestamp ≠ b.timestamp) :=
    ((ScanSubtree_perm g visits).pairwise_iff (fun {a b} h => Ne.symm h)).mpr
      (discovered_timestamps_distinct visits hdistinct)
  refine (hle.and hne).imp ?_
  intro a b hab
  have h1 : b.timestamp ≤ a.timestamp := hab.1
  have h2 : a.timestamp ≠ b.timestamp := hab.2
  omega

/-- C16: two walks that are rearrangements of one another, and whose
regular-file visits have pairwise distinct modification times, make
`ScanSubtree` return the same sequence of records, whatever the static state
held before each scan. -/
theorem ScanSubtree_discovery_order_irrelevant (g1 g2 : tScanSubtree)
    (visits1 visits2 : List Visit) (hperm : visits1.Perm visits2)
    (hdistinct : (visits1.filter isRegular).Pairwise
      (fun a b => a.status.st_mtim_tv_sec ≠ b.status.st_mtim_tv_sec)) :
    (ScanSubtree g1 visits1).2 = (ScanSubtree g2 visits2).2 := by
  have hdistinct2 : (visits2.filter isRegular).Pairwise
      (fun a b => a.status.st_mtim_tv_sec ≠ b.status.st_mtim_tv_sec) :=
    ((hperm.filter isRegular).pairwise_iff (fun {a b} h => Ne.symm h)).mp hdistinct
  have hs1 := ScanSubtree_descending_of_distinct g1 visits1 hdistinct
  have hs2 := ScanSubtree_descending_of_distinct g2 visits2 hdistinct2
  have hp : (ScanSubtree g1 visits1).2.Perm (ScanSubtree g2 visits2).2 :=
    ((ScanSubtree_perm g1 visits1).trans (hperm.filterMap extracted)).trans
      (ScanSubtree_perm g2 visits2).symm
  haveI : IsAntisymm tFileObj (fun a b => a.timestamp > b.timestamp) :=
    ⟨fun a b hab hba => absurd hab (not_lt_of_gt hba)⟩
  exact List.eq_of_perm_of_sorted hp hs1 hs2

/-- Scenario 1 walked in the opposite order of discovery gives the same report,
also when the static state still holds an earlier chain. -/
theorem ScanSubtree_discovery_order_irrelevant_witness :
    (scenario1 1700000000).Perm (scenario1 1700000000).reverse
      ∧ ((scenario1 1700000000).filter isRegular).Pairwise
          (fun a b => a.status.st_mtim_tv_sec ≠ b.status.st_mtim_tv_sec)
      ∧ (ScanSubtree gInit (scenario1 1700000000)).2
          = (ScanSubtree sampleChain (scenario1 1700000000).reverse).2
      ∧ (ScanSubtree sampleChain (scenario1 1700000000).reverse).2.map (fun r => r.path)
          = [some "./b.txt", some "./a.txt"] :=
  ⟨(List.reverse_perm _).symm, by decide,
    ScanSubtree_discovery_order_irrelevant gInit sampleChain (scenario1 1700000000)
      (scenario1 1700000000).reverse (List.reverse_perm _).symm (by decide),
    by decide⟩

end OrganizeTv
